import Mathlib

/-!
Verification of the Trading Analytics Dashboard (TAD) analytics engine.

This file shallowly embeds the pure analytics logic of the dashboard
(`pages/index.tsx` and `services/api.ts`) in Lean 4 and proves the
specified properties about it.  JavaScript numbers are modelled as `ℚ`
(the analytics formulas use only field arithmetic on finite values);
calendar dates are modelled as year/month/day triples, and
`Date.getTime()` — used by the source only as a sort key — is modelled
by a numeric key that is strictly monotone in (year, month, day) over
valid calendar dates.
-/

namespace TAD

/-- A calendar date at day granularity, the parsed form of the source's
ISO `date` strings (e.g. `"2025-12-18"` ↦ year 2025, month 12, day 18).
Distinct ISO day strings correspond to distinct triples. -/
structure TDate where
  year : Nat
  month : Nat
  day : Nat
deriving DecidableEq, Repr

/-- Numeric sort key for a date, modelling `new Date(s).getTime()` as used
by the source's sort comparators: over valid calendar dates (month 1–12,
day 1–31) it is strictly monotone in the same order as the epoch time. -/
def dateVal (d : TDate) : Nat := d.year * 10000 + d.month * 100 + d.day

/-- Trade direction, the source's `"Long" | "Short"` union. -/
inductive Direction where
  | long : Direction
  | short : Direction
deriving DecidableEq, Repr

/-- The `Trade` record type from `services/api.ts`.  Optional fields use
`Option`; `pnl` and the prices are `ℚ` models of JS numbers. -/
structure Trade where
  id : String
  date : TDate
  symbol : String
  direction : Direction
  entry : ℚ
  exit : Option ℚ
  size : ℚ
  pnl : ℚ
  session : Option String
  notes : Option String
  isExitRecord : Option Bool
deriving DecidableEq, Repr

/-- JS truthiness of a `number | undefined` value (`Boolean(x)`):
`undefined` and `0` are falsy, every other (finite) number is truthy. -/
def jsTruthyNum (x : Option ℚ) : Bool :=
  match x with
  | none => false
  | some v => v != 0

/-- JS truthiness of a `boolean | undefined` value: `undefined` and
`false` are falsy. -/
def jsTruthyBool (x : Option Bool) : Bool :=
  match x with
  | none => false
  | some b => b

/-- The abbreviated English month name produced by
`toLocaleString("en-GB", { month: "short" })` for month numbers 1–12. -/
def monthAbbrev (m : Nat) : String :=
  match m with
  | 1 => "Jan" | 2 => "Feb" | 3 => "Mar" | 4 => "Apr"
  | 5 => "May" | 6 => "Jun" | 7 => "Jul" | 8 => "Aug"
  | 9 => "Sep" | 10 => "Oct" | 11 => "Nov" | 12 => "Dec"
  | _ => "Invalid"

/-- `` `${d.getFullYear()}`.slice(-2) ``: the last two characters of the
decimal representation of the year. -/
def shortYear (y : Nat) : String :=
  let s := toString y
  if s.length ≤ 2 then s else s.drop (s.length - 2)

/-- `monthFromDate` from `pages/index.tsx`: abbreviated month name
concatenated with the two-digit year, e.g. `Dec25`. -/
def monthFromDate (d : TDate) : String :=
  monthAbbrev d.month ++ shortYear d.year

/-- `DashboardView.filtered` from `pages/index.tsx`: keep trades of the
active month, then — when `exitsOnly` — those where `Boolean(t.exit)` or
`t.isExitRecord` is truthy. -/
def filterTrades (trades : List Trade) (activeMonth : String) (exitsOnly : Bool) :
    List Trade :=
  (trades.filter (fun t => monthFromDate t.date == activeMonth)).filter
    (fun t => if exitsOnly then jsTruthyNum t.exit || jsTruthyBool t.isExitRecord else true)

/-- The loop body of `computeDrawdown`: state is `(equity, peak, maxDd)`. -/
def ddStep (st : ℚ × ℚ × ℚ) (t : Trade) : ℚ × ℚ × ℚ :=
  let equity := st.1 + t.pnl
  let peak := max st.2.1 equity
  let maxDd := min st.2.2 (equity - peak)
  (equity, peak, maxDd)

/-- `computeDrawdown` from `pages/index.tsx`: a single left-to-right scan
with `equity`, `peak` and `maxDd` all starting at 0, returning `maxDd`. -/
def computeDrawdown (series : List Trade) : ℚ :=
  (series.foldl ddStep (0, 0, 0)).2.2

/-- The running equity sequence of `computeDrawdown`: the values taken by
`equity`, including the initial 0. -/
def runningEquity (series : List Trade) : List ℚ :=
  series.scanl (fun e t => e + t.pnl) 0

/-- The summary-statistics record computed by `DashboardView.stats`. -/
structure SummaryStats where
  net : ℚ
  winRate : ℚ
  avgWin : ℚ
  avgLoss : ℚ
  totalTrades : Nat
  drawdown : ℚ
deriving DecidableEq, Repr

/-- `DashboardView.stats` from `pages/index.tsx` (the spec's `summarize`):
net P&L, win rate (percent), average win, average loss, trade count and
max drawdown over its input list.  The JS truthiness guards
`filtered.length ?`, `wins.length ?`, `losses.length ?` are length-is-nonzero
tests. -/
def stats (filtered : List Trade) : SummaryStats :=
  let net := filtered.foldl (fun acc t => acc + t.pnl) 0
  let wins := filtered.filter (fun t => 0 < t.pnl)
  let losses := filtered.filter (fun t => t.pnl < 0)
  let winRate := if filtered.length ≠ 0 then ((wins.length : ℚ) / (filtered.length : ℚ)) * 100 else 0
  let avgWin := if wins.length ≠ 0 then (wins.foldl (fun acc t => acc + t.pnl) 0) / (wins.length : ℚ) else 0
  let avgLoss := if losses.length ≠ 0 then (losses.foldl (fun acc t => acc + t.pnl) 0) / (losses.length : ℚ) else 0
  let drawdown := computeDrawdown filtered
  { net := net, winRate := winRate, avgWin := avgWin, avgLoss := avgLoss,
    totalTrades := filtered.length, drawdown := drawdown }

/-- One point of `DashboardView.equityCurve`: the trade's date, the
running cumulative P&L and the trade's own P&L. -/
structure CurvePoint where
  date : TDate
  equity : ℚ
  pnl : ℚ
deriving DecidableEq, Repr

/-- The source's `.slice().sort((a, b) => getTime(a.date) - getTime(b.date))`:
a stable sort of the trades by date ascending (JS `Array.prototype.sort`
is stable). -/
def sortByDate (l : List Trade) : List Trade :=
  l.mergeSort (fun a b => dateVal a.date ≤ dateVal b.date)

/-- The `.map` body of `equityCurve` with its mutable `running`
accumulator made explicit. -/
def curveGo (running : ℚ) : List Trade → List CurvePoint
  | [] => []
  | t :: ts =>
    let r := running + t.pnl
    { date := t.date, equity := r, pnl := t.pnl } :: curveGo r ts

/-- `DashboardView.equityCurve` from `pages/index.tsx`: sort by date
ascending, then emit one point per trade carrying the running cumulative
P&L. -/
def equityCurve (l : List Trade) : List CurvePoint :=
  curveGo 0 (sortByDate l)

/-- One entry of `DashboardView.dailyPnL`. -/
structure DailyPoint where
  date : TDate
  pnl : ℚ
deriving DecidableEq, Repr

/-- `Map.prototype.set` semantics on an insertion-ordered association
list: overwrite the value of an existing key in place, otherwise append
the new binding at the end. -/
def mapSet : List (TDate × ℚ) → TDate → ℚ → List (TDate × ℚ)
  | [], k, v => [(k, v)]
  | (k', v') :: rest, k, v =>
    if k' = k then (k', v) :: rest else (k', v') :: mapSet rest k v

/-- `Map.prototype.get` on an insertion-ordered association list. -/
def mapGet : List (TDate × ℚ) → TDate → Option ℚ
  | [], _ => none
  | (k', v') :: rest, k => if k' = k then some v' else mapGet rest k

/-- The grouping pass of `dailyPnL`:
`map.set(t.date, (map.get(t.date) ?? 0) + t.pnl)` over the trades, on an
initially empty insertion-ordered map. -/
def dailyBuild (l : List Trade) : List (TDate × ℚ) :=
  l.foldl (fun m t => mapSet m t.date ((mapGet m t.date).getD 0 + t.pnl)) []

/-- `DashboardView.dailyPnL` from `pages/index.tsx`: group trades by
exact date summing `pnl`, sort entries by date ascending, and emit
`{date, pnl}` records. -/
def dailyPnL (l : List Trade) : List DailyPoint :=
  (((dailyBuild l).mergeSort (fun a b => dateVal a.1 ≤ dateVal b.1)).map
    (fun p => { date := p.1, pnl := p.2 }))

/-- `ReportsView.profitFactor` from `pages/index.tsx`: gross wins over
gross losses, with the JS truthiness guard `losses ? wins / losses : wins`
(a zero denominator yields the wins sum itself). -/
def profitFactor (trades : List Trade) : ℚ :=
  let wins := (trades.filter (fun t => 0 < t.pnl)).foldl (fun a t => a + t.pnl) 0
  let losses := (trades.filter (fun t => t.pnl < 0)).foldl (fun a t => a + |t.pnl|) 0
  if losses ≠ 0 then wins / losses else wins

/-- `Math.max(...xs)` over a list: `none` stands for the `-Infinity`
result on an empty argument list. -/
def jsMax (l : List ℚ) : Option ℚ :=
  l.foldl (fun acc x =>
    match acc with
    | none => some x
    | some a => some (max a x)) none

/-- `Math.min(...xs)` over a list: `none` stands for the `Infinity`
result on an empty argument list. -/
def jsMin (l : List ℚ) : Option ℚ :=
  l.foldl (fun acc x =>
    match acc with
    | none => some x
    | some a => some (min a x)) none

/-- `ReportsView.best` from `pages/index.tsx`:
`Math.max(...trades.map((t) => t.pnl))`. -/
def best (trades : List Trade) : Option ℚ :=
  jsMax (trades.map (fun t => t.pnl))

/-- `ReportsView.worst` from `pages/index.tsx`:
`Math.min(...trades.map((t) => t.pnl))`. -/
def worst (trades : List Trade) : Option ℚ :=
  jsMin (trades.map (fun t => t.pnl))

/-- `assignSession` from `pages/index.tsx` applied to the previous trade
list: `prev.map((t) => (t.id === tradeId ? { ...t, session } : t))`. -/
def assignSession (tradeId : String) (session : String) (prev : List Trade) :
    List Trade :=
  prev.map (fun t => if t.id = tradeId then { t with session := some session } else t)

/-- The observable outcomes of the `fetch("/api/health")` call inside
`tryApi`: the fetch throws (network failure), the response has a
non-success status (`!res.ok`), or a JSON body is produced whose `ok`
field has the given truthiness (a missing or falsy `ok` is `false`). -/
inductive FetchOutcome where
  | fetchError : FetchOutcome
  | httpError : FetchOutcome
  | success : Bool → FetchOutcome
deriving DecidableEq, Repr

/-- `tryApi` from `services/api.ts` specialised to the health body: the
catch clause and the `!res.ok` branch both return `null`; otherwise the
parsed body is returned. -/
def tryApiHealth (o : FetchOutcome) : Option Bool :=
  match o with
  | .fetchError => none
  | .httpError => none
  | .success ok => some ok

/-- The result record of `health`. -/
structure HealthResult where
  ok : Bool
  source : String
deriving DecidableEq, Repr

/-- `health` from `services/api.ts`:
`if (apiHealth?.ok) return { ok: true, source: "api" }` else
`{ ok: true, source: "local" }`. -/
def health (o : FetchOutcome) : HealthResult :=
  match tryApiHealth o with
  | some true => { ok := true, source := "api" }
  | _ => { ok := true, source := "local" }

/-! ## Helper lemmas and concrete sample data -/

/-- A concrete trade used by witness theorems, shaped like the seed data
of `services/api.ts`. -/
def sampleTrade (i : String) (d : TDate) (p : ℚ) : Trade :=
  { id := i, date := d, symbol := "NAS100", direction := .long, entry := 1,
    exit := none, size := 1, pnl := p, session := none, notes := none,
    isExitRecord := none }

/-- A concrete trade with an `exit` value, used by witness theorems. -/
def sampleExitTrade (i : String) (d : TDate) (p : ℚ) (ex : ℚ) : Trade :=
  { sampleTrade i d p with exit := some ex }

/-- A `reduce((acc, t) => acc + g(t), a)` fold is `a` plus the sum of the
mapped values. -/
theorem foldl_add_eq (g : Trade → ℚ) :
    ∀ (l : List Trade) (a : ℚ), l.foldl (fun acc t => acc + g t) a = a + (l.map g).sum := by
  intro l
  induction l with
  | nil => intro a; simp
  | cons t ts ih => intro a; simp [ih, add_assoc]

/-- Filtering on a predicate of the projected value commutes with the
projection. -/
theorem filter_map_pnl (p : ℚ → Bool) :
    ∀ l : List Trade,
      (l.filter (fun t => p t.pnl)).map (fun t => t.pnl) =
        (l.map (fun t => t.pnl)).filter p := by
  intro l
  induction l with
  | nil => rfl
  | cons t ts ih =>
    by_cases h : p t.pnl = true <;> simp [List.filter_cons, h, ih]

/-! ## C1: maximum drawdown -/

/-- The `maxDd` component of the drawdown scan never increases. -/
theorem dd_foldl_le (l : List Trade) :
    ∀ s : ℚ × ℚ × ℚ, (l.foldl ddStep s).2.2 ≤ s.2.2 := by
  induction l with
  | nil => intro s; exact le_refl _
  | cons t ts ih =>
    intro s
    calc (List.foldl ddStep (ddStep s t) ts).2.2 ≤ (ddStep s t).2.2 := ih _
      _ ≤ s.2.2 := min_le_left _ _

/-- When every P&L is nonnegative, `peak` tracks `equity` exactly and the
scan leaves `maxDd` unchanged (given it starts nonpositive). -/
theorem dd_foldl_eq_of_nonneg (l : List Trade) :
    ∀ (e m : ℚ), m ≤ 0 → (∀ t ∈ l, 0 ≤ t.pnl) →
      (l.foldl ddStep (e, e, m)).2.2 = m := by
  induction l with
  | nil => intro e m _ _; rfl
  | cons t ts ih =>
    intro e m hm hall
    have hp : 0 ≤ t.pnl := hall t (by simp)
    have hstep : ddStep (e, e, m) t = (e + t.pnl, e + t.pnl, m) := by
      show (e + t.pnl, max e (e + t.pnl), min m (e + t.pnl - max e (e + t.pnl))) = _
      have h1 : max e (e + t.pnl) = e + t.pnl := max_eq_right (by linarith)
      rw [h1, sub_self, min_eq_left hm]
    rw [List.foldl_cons, hstep]
    exact ih (e + t.pnl) m hm (fun u hu => hall u (by simp [hu]))

/-- A trade with negative P&L forces the final `maxDd` strictly below 0,
provided `peak` dominates `equity` in the starting state. -/
theorem dd_foldl_neg (l : List Trade) :
    ∀ s : ℚ × ℚ × ℚ, s.1 ≤ s.2.1 → (∃ t ∈ l, t.pnl < 0) →
      (l.foldl ddStep s).2.2 < 0 := by
  induction l with
  | nil => intro s _ h; exact absurd h (by simp)
  | cons t ts ih =>
    intro s hinv hex
    by_cases hneg : t.pnl < 0
    · have hstep : (ddStep s t).2.2 < 0 := by
        unfold ddStep
        simp only
        have hpeak : s.2.1 ≤ max s.2.1 (s.1 + t.pnl) := le_max_left _ _
        have : s.1 + t.pnl - max s.2.1 (s.1 + t.pnl) < 0 := by
          have h1 : s.1 ≤ max s.2.1 (s.1 + t.pnl) := le_trans hinv hpeak
          linarith
        exact lt_of_le_of_lt (min_le_right _ _) this
      calc (List.foldl ddStep (ddStep s t) ts).2.2 ≤ (ddStep s t).2.2 :=
            dd_foldl_le ts _
        _ < 0 := hstep
    · obtain ⟨u, hu, huneg⟩ := hex
      rcases List.mem_cons.mp hu with rfl | hu'
      · exact absurd huneg hneg
      · refine ih (ddStep s t) ?_ ⟨u, hu', huneg⟩
        unfold ddStep
        simp only
        exact le_max_right _ _

/-- `computeDrawdown` is zero exactly when no trade loses money. -/
theorem computeDrawdown_eq_zero_iff (l : List Trade) :
    computeDrawdown l = 0 ↔ ∀ t ∈ l, 0 ≤ t.pnl := by
  constructor
  · intro h
    by_contra hnot
    push_neg at hnot
    obtain ⟨t, ht, htneg⟩ := hnot
    have := dd_foldl_neg l (0, 0, 0) (le_refl 0) ⟨t, ht, htneg⟩
    rw [computeDrawdown] at h
    linarith
  · intro h
    exact dd_foldl_eq_of_nonneg l 0 0 (le_refl 0) h

/-- The running equity prefix sums are monotone exactly when no trade
loses money. -/
theorem runningEquity_sorted_iff (l : List Trade) :
    ∀ e : ℚ, List.Chain' (· ≤ ·) (l.scanl (fun acc t => acc + t.pnl) e) ↔
      ∀ t ∈ l, 0 ≤ t.pnl := by
  induction l with
  | nil => intro e; simp
  | cons t ts ih =>
    intro e
    rw [List.scanl_cons, List.singleton_append]
    have hhead : (ts.scanl (fun acc t => acc + t.pnl) (e + t.pnl)).head? =
        some (e + t.pnl) := by
      cases ts <;> rfl
    rw [List.chain'_cons']
    constructor
    · rintro ⟨h1, h2⟩
      intro u hu
      rcases List.mem_cons.mp hu with rfl | hu'
      · have := h1 (e + u.pnl) (by simp [hhead])
        linarith
      · exact ((ih (e + t.pnl)).mp h2) u hu'
    · intro hall
      refine ⟨?_, (ih (e + t.pnl)).mpr (fun u hu => hall u (by simp [hu]))⟩
      intro y hy
      rw [hhead] at hy
      cases hy
      have := hall t (by simp)
      linarith

/-- C1: the drawdown scan (running equity from 0, running peak from 0,
per-trade `equity += pnl; peak = max(peak, equity);
drawdown = min(drawdown, equity - peak)`) always yields a result ≤ 0, and
the result is 0 exactly when the running equity sequence is
non-decreasing. -/
theorem computeDrawdown_spec (l : List Trade) :
    computeDrawdown l ≤ 0 ∧
      (computeDrawdown l = 0 ↔ List.Sorted (· ≤ ·) (runningEquity l)) := by
  constructor
  · exact dd_foldl_le l (0, 0, 0)
  · rw [computeDrawdown_eq_zero_iff l, List.Sorted, ← List.chain'_iff_pairwise,
      runningEquity]
    exact (runningEquity_sorted_iff l 0).symm

/-! ## C2: `filterTrades` -/

/-- Month filtering as the claim words it: "exit is present OR
isExitRecord is true".  The source instead tests JS truthiness of `exit`
(`Boolean(t.exit)`), which is false for a present exit of `0`. -/
def filterTradesSpec (trades : List Trade) (m : String) (eo : Bool) : List Trade :=
  trades.filter (fun t => monthFromDate t.date == m &&
    (if eo then t.exit.isSome || (t.isExitRecord == some true) else true))

/-- Counterexample for C2 as stated: a December-2025 trade with
`exit = 0` (present but falsy) and no `isExitRecord` is dropped by the
source's filter although the claim says it must be kept. -/
theorem filterTrades_claim_counterexample :
    filterTrades [sampleExitTrade "T-X" ⟨2025, 12, 5⟩ 1 0] "Dec25" true = [] ∧
      filterTradesSpec [sampleExitTrade "T-X" ⟨2025, 12, 5⟩ 1 0] "Dec25" true =
        [sampleExitTrade "T-X" ⟨2025, 12, 5⟩ 1 0] := by
  decide

/-- JS truthiness of `exit` equals "present with a nonzero value". -/
theorem jsTruthyNum_eq (x : Option ℚ) : jsTruthyNum x = (x.getD 0 != 0) := by
  cases x <;> simp [jsTruthyNum]

/-- JS truthiness of `isExitRecord` equals its value with default
`false`. -/
theorem jsTruthyBool_eq (x : Option Bool) : jsTruthyBool x = x.getD false := by
  cases x <;> rfl

/-- C2 (amended): `filterTrades` keeps exactly the trades whose computed
month token equals `monthToken` and — when `exitsOnly` is true — whose
`exit` is present with a nonzero value or whose `isExitRecord` is true;
the survivors appear in their original relative order (the result is a
sublist of the input), and an empty result is returned normally. -/
theorem filterTrades_amended_spec (trades : List Trade) (m : String) (eo : Bool) :
    filterTrades trades m eo =
      trades.filter (fun t => monthFromDate t.date == m &&
        (if eo then (t.exit.getD 0 != 0) || t.isExitRecord.getD false else true)) ∧
      (filterTrades trades m eo).Sublist trades := by
  constructor
  · unfold filterTrades
    rw [List.filter_filter]
    refine List.filter_congr ?_
    intro t _
    cases eo <;> simp [jsTruthyNum_eq, jsTruthyBool_eq, Bool.and_comm]
  · exact List.Sublist.trans (List.filter_sublist _) (List.filter_sublist _)

/-! ## C4: `summarize` on the empty sequence -/

/-- C4: `summarize` (the source's `DashboardView.stats`) on the empty trade
sequence raises no error and returns `net = 0`, `totalTrades = 0`,
`winRate = 0`, `avgWin = 0`, `avgLoss = 0` and `drawdown = 0`. -/
theorem stats_empty_spec :
    stats [] = { net := 0, winRate := 0, avgWin := 0, avgLoss := 0,
                 totalTrades := 0, drawdown := 0 } := by
  rfl

/-! ## C3: `equityCurve` -/

/-- The running partial sums of a P&L list from a starting equity. -/
def partialSums (r : ℚ) : List ℚ → List ℚ
  | [] => []
  | p :: ps => (r + p) :: partialSums (r + p) ps

/-- `curveGo` emits one point per trade. -/
theorem curveGo_length (l : List Trade) :
    ∀ r : ℚ, (curveGo r l).length = l.length := by
  induction l with
  | nil => intro r; rfl
  | cons t ts ih => intro r; simp [curveGo, ih]

/-- The points carry each trade's own P&L. -/
theorem curveGo_pnl (l : List Trade) :
    ∀ r : ℚ, (curveGo r l).map (fun p => p.pnl) = l.map (fun t => t.pnl) := by
  induction l with
  | nil => intro r; rfl
  | cons t ts ih => intro r; simp [curveGo, ih]

/-- The points carry each trade's date. -/
theorem curveGo_date (l : List Trade) :
    ∀ r : ℚ, (curveGo r l).map (fun p => p.date) = l.map (fun t => t.date) := by
  induction l with
  | nil => intro r; rfl
  | cons t ts ih => intro r; simp [curveGo, ih]

/-- The points carry the running cumulative P&L. -/
theorem curveGo_equity (l : List Trade) :
    ∀ r : ℚ, (curveGo r l).map (fun p => p.equity) =
      partialSums r (l.map (fun t => t.pnl)) := by
  induction l with
  | nil => intro r; rfl
  | cons t ts ih => intro r; simp [curveGo, partialSums, ih]

/-- The last partial sum is the total sum. -/
theorem partialSums_getLastD (ps : List ℚ) :
    ∀ r : ℚ, (partialSums r ps).getLastD r = r + ps.sum := by
  induction ps with
  | nil => intro r; simp [partialSums]
  | cons p ps ih =>
    intro r
    rw [partialSums, List.getLastD_cons, ih (r + p), List.sum_cons, add_assoc]

/-- The sort key of `sortByDate` is transitive. -/
theorem dateLe_trans : ∀ a b c : Trade,
    (fun a b : Trade => (dateVal a.date ≤ dateVal b.date : Bool)) a b →
    (fun a b : Trade => (dateVal a.date ≤ dateVal b.date : Bool)) b c →
    (fun a b : Trade => (dateVal a.date ≤ dateVal b.date : Bool)) a c := by
  intro a b c hab hbc
  simp only [decide_eq_true_eq] at *
  omega

/-- The sort key of `sortByDate` is total. -/
theorem dateLe_total : ∀ a b : Trade,
    ((fun a b : Trade => (dateVal a.date ≤ dateVal b.date : Bool)) a b ||
     (fun a b : Trade => (dateVal a.date ≤ dateVal b.date : Bool)) b a) := by
  intro a b
  simp only [Bool.or_eq_true, decide_eq_true_eq]
  exact Nat.le_total _ _

/-- `sortByDate` produces a date-ascending list. -/
theorem sortByDate_pairwise (l : List Trade) :
    List.Pairwise (fun a b : Trade => dateVal a.date ≤ dateVal b.date) (sortByDate l) := by
  have hs := List.sorted_mergeSort dateLe_trans dateLe_total l
  exact hs.imp (fun h => of_decide_eq_true h)

/-- `sortByDate` permutes its input. -/
theorem sortByDate_perm (l : List Trade) : (sortByDate l).Perm l :=
  List.mergeSort_perm l _

/-- `summarize(trades).net` is the sum of the mapped P&L values. -/
theorem stats_net_eq (l : List Trade) :
    (stats l).net = (l.map (fun t => t.pnl)).sum := by
  show l.foldl (fun acc t => acc + t.pnl) 0 = _
  rw [foldl_add_eq (fun t => t.pnl) l 0, zero_add]

/-- C3: `equityCurve` is deterministic (two calls on the same input agree),
emits one point per input trade, sorted by date ascending, carrying each
trade's P&L and the running cumulative P&L, and the final equity value
equals `summarize(trades).net`. -/
theorem equityCurve_spec (l : List Trade) :
    equityCurve l = equityCurve l ∧
      (equityCurve l).length = l.length ∧
      List.Pairwise (fun p q : CurvePoint => dateVal p.date ≤ dateVal q.date)
        (equityCurve l) ∧
      (equityCurve l).map (fun p => p.pnl) = (sortByDate l).map (fun t => t.pnl) ∧
      (equityCurve l).map (fun p => p.equity) =
        partialSums 0 ((sortByDate l).map (fun t => t.pnl)) ∧
      ((equityCurve l).map (fun p => p.equity)).getLastD 0 = (stats l).net := by
  refine ⟨rfl, ?_, ?_, ?_, ?_, ?_⟩
  · rw [equityCurve, curveGo_length, sortByDate, List.length_mergeSort]
  · have hdates : (equityCurve l).map (fun p => p.date) =
        (sortByDate l).map (fun t => t.date) := curveGo_date (sortByDate l) 0
    have hP : List.Pairwise (fun d e : TDate => dateVal d ≤ dateVal e)
        ((equityCurve l).map (fun p => p.date)) := by
      rw [hdates, List.pairwise_map]
      exact sortByDate_pairwise l
    rw [List.pairwise_map] at hP
    exact hP
  · exact curveGo_pnl (sortByDate l) 0
  · exact curveGo_equity (sortByDate l) 0
  · rw [equityCurve, curveGo_equity (sortByDate l) 0, partialSums_getLastD, zero_add,
      stats_net_eq]
    exact ((sortByDate_perm l).map (fun t => t.pnl)).sum_eq

/-! ## C5: `profitFactor` -/

/-- C5: for every trade sequence, `profitFactor` equals the sum of positive
P&L divided by the sum of the absolute values of negative P&L, except that
when that denominator is 0 it equals the positive sum itself (not infinity
and not an error). -/
theorem profitFactor_spec (ts : List Trade) :
    profitFactor ts =
      (if (((ts.map (fun t => t.pnl)).filter (fun x => x < 0)).map (fun x => |x|)).sum = 0
       then ((ts.map (fun t => t.pnl)).filter (fun x => 0 < x)).sum
       else ((ts.map (fun t => t.pnl)).filter (fun x => 0 < x)).sum /
            (((ts.map (fun t => t.pnl)).filter (fun x => x < 0)).map (fun x => |x|)).sum) := by
  have hW : (ts.filter (fun t => 0 < t.pnl)).foldl (fun a t => a + t.pnl) 0 =
      ((ts.map (fun t => t.pnl)).filter (fun x => 0 < x)).sum := by
    rw [foldl_add_eq (fun t => t.pnl) (ts.filter (fun t => 0 < t.pnl)) 0, zero_add,
      filter_map_pnl (fun x => 0 < x) ts]
  have hL : (ts.filter (fun t => t.pnl < 0)).foldl (fun a t => a + |t.pnl|) 0 =
      (((ts.map (fun t => t.pnl)).filter (fun x => x < 0)).map (fun x => |x|)).sum := by
    rw [foldl_add_eq (fun t => |t.pnl|) (ts.filter (fun t => t.pnl < 0)) 0, zero_add,
      ← filter_map_pnl (fun x => x < 0) ts, List.map_map]
    rfl
  unfold profitFactor
  rw [hW, hL]
  by_cases h : (((ts.map (fun t => t.pnl)).filter (fun x => x < 0)).map (fun x => |x|)).sum = 0 <;>
    simp [h]

/-! ## C6: `dailyPnL` -/

/-- Setting a key makes it readable. -/
theorem mapGet_mapSet_self (m : List (TDate × ℚ)) (k : TDate) (v : ℚ) :
    mapGet (mapSet m k v) k = some v := by
  induction m with
  | nil => simp [mapSet, mapGet]
  | cons p rest ih =>
    by_cases h : p.1 = k
    · simp [mapSet, mapGet, h]
    · simp [mapSet, mapGet, h, ih]

/-- Setting a key leaves every other key's value unchanged. -/
theorem mapGet_mapSet_ne (m : List (TDate × ℚ)) (k k' : TDate) (v : ℚ)
    (h : k' ≠ k) : mapGet (mapSet m k v) k' = mapGet m k' := by
  induction m with
  | nil => simp [mapSet, mapGet, Ne.symm h]
  | cons p rest ih =>
    obtain ⟨a, b⟩ := p
    by_cases hp : a = k
    · subst hp
      have ha : ¬ a = k' := fun he => h he.symm
      simp [mapSet, mapGet, ha]
    · by_cases hp' : a = k'
      · subst hp'
        simp [mapSet, mapGet, hp]
      · simp [mapSet, mapGet, hp, hp', ih]

/-- `mapSet` keeps the key sequence, appending the key when it is new. -/
theorem mapSet_keys (m : List (TDate × ℚ)) (k : TDate) (v : ℚ) :
    (mapSet m k v).map Prod.fst =
      if k ∈ m.map Prod.fst then m.map Prod.fst else m.map Prod.fst ++ [k] := by
  induction m with
  | nil => simp [mapSet]
  | cons p rest ih =>
    by_cases h : p.1 = k
    · simp [mapSet, h]
    · have hk : (k ∈ p.1 :: rest.map Prod.fst) ↔ k ∈ rest.map Prod.fst := by
        constructor
        · intro hmem
          rcases List.mem_cons.mp hmem with he | hm
          · exact absurd he.symm h
          · exact hm
        · exact List.mem_cons_of_mem _
      by_cases hmem : k ∈ rest.map Prod.fst
      · simp [mapSet, h, ih, hmem, hk]
      · simp [mapSet, h, ih, hmem, hk]

/-- `mapSet` preserves key distinctness. -/
theorem mapSet_keys_nodup (m : List (TDate × ℚ)) (k : TDate) (v : ℚ)
    (h : (m.map Prod.fst).Nodup) : ((mapSet m k v).map Prod.fst).Nodup := by
  rw [mapSet_keys]
  by_cases hmem : k ∈ m.map Prod.fst
  · simpa [hmem]
  · simp only [hmem, if_false]
    exact List.Nodup.append h (List.nodup_singleton k)
      (fun a ha hak => hmem ((List.mem_singleton.mp hak) ▸ ha))

/-- Key membership after `mapSet`. -/
theorem mapSet_keys_mem (m : List (TDate × ℚ)) (k k' : TDate) (v : ℚ) :
    k' ∈ (mapSet m k v).map Prod.fst ↔ k' ∈ m.map Prod.fst ∨ k' = k := by
  rw [mapSet_keys]
  by_cases hmem : k ∈ m.map Prod.fst
  · simp only [hmem, if_true]
    constructor
    · exact Or.inl
    · rintro (h | rfl)
      · exact h
      · exact hmem
  · simp [hmem]

/-- The total of the stored values after `mapSet`: the new value replaces
the old one (0 when the key was absent). -/
theorem mapSet_snd_sum (m : List (TDate × ℚ)) (k : TDate) (v : ℚ) :
    ((mapSet m k v).map Prod.snd).sum =
      (m.map Prod.snd).sum + v - (mapGet m k).getD 0 := by
  induction m with
  | nil => simp [mapSet, mapGet]
  | cons p rest ih =>
    by_cases h : p.1 = k
    · simp [mapSet, mapGet, h]
      ring
    · simp [mapSet, mapGet, h, ih]
      ring

/-- In a map with distinct keys, a stored binding is what `mapGet`
returns. -/
theorem mem_mapGet (m : List (TDate × ℚ)) (k : TDate) (v : ℚ)
    (hnd : (m.map Prod.fst).Nodup) (hm : (k, v) ∈ m) : mapGet m k = some v := by
  induction m with
  | nil => exact absurd hm (by simp)
  | cons p rest ih =>
    rcases List.mem_cons.mp hm with rfl | hm'
    · simp [mapGet]
    · have hk : k ∈ rest.map Prod.fst :=
        List.mem_map.mpr ⟨(k, v), hm', rfl⟩
      have hne : ¬ p.1 = k := by
        intro he
        have := (List.nodup_cons.mp hnd).1
        exact this (he ▸ hk)
      simp only [mapGet, hne, if_false]
      exact ih (List.nodup_cons.mp hnd).2 hm'

/-- The grouping fold of `dailyPnL` keeps its keys distinct. -/
theorem dailyBuild_aux_nodup (l : List Trade) :
    ∀ m : List (TDate × ℚ), (m.map Prod.fst).Nodup →
      (((l.foldl (fun m t => mapSet m t.date ((mapGet m t.date).getD 0 + t.pnl)) m)).map
        Prod.fst).Nodup := by
  induction l with
  | nil => intro m h; exact h
  | cons t ts ih =>
    intro m h
    exact ih _ (mapSet_keys_nodup m t.date _ h)

/-- A key appears in the grouping fold exactly when it was already present
or some trade carries that date. -/
theorem dailyBuild_aux_mem (l : List Trade) :
    ∀ (m : List (TDate × ℚ)) (k : TDate),
      k ∈ ((l.foldl (fun m t => mapSet m t.date ((mapGet m t.date).getD 0 + t.pnl)) m)).map
          Prod.fst ↔
        k ∈ m.map Prod.fst ∨ k ∈ l.map (fun t => t.date) := by
  induction l with
  | nil => intro m k; simp
  | cons t ts ih =>
    intro m k
    rw [List.foldl_cons, ih, mapSet_keys_mem]
    constructor
    · rintro ((h | rfl) | h)
      · exact Or.inl h
      · exact Or.inr (by rw [List.map_cons]; exact List.mem_cons_self _ _)
      · exact Or.inr (by rw [List.map_cons]; exact List.mem_cons_of_mem _ h)
    · rintro (h | h)
      · exact Or.inl (Or.inl h)
      · rw [List.map_cons] at h
        rcases List.mem_cons.mp h with he | hm
        · exact Or.inl (Or.inr he)
        · exact Or.inr hm

/-- The value the grouping fold accumulates at a key is the starting value
plus the summed P&L of the trades dated with that key. -/
theorem dailyBuild_aux_get (l : List Trade) :
    ∀ (m : List (TDate × ℚ)) (k : TDate),
      (mapGet ((l.foldl (fun m t => mapSet m t.date ((mapGet m t.date).getD 0 + t.pnl)) m)) k).getD 0 =
        (mapGet m k).getD 0 + ((l.filter (fun t => t.date = k)).map (fun t => t.pnl)).sum := by
  induction l with
  | nil => intro m k; simp
  | cons t ts ih =>
    intro m k
    rw [List.foldl_cons, ih]
    by_cases h : t.date = k
    · subst h
      rw [mapGet_mapSet_self]
      have : (t :: ts).filter (fun u => u.date = t.date) =
          t :: ts.filter (fun u => u.date = t.date) := by
        simp [List.filter_cons]
      rw [this]
      simp [add_assoc]
    · rw [mapGet_mapSet_ne _ _ _ _ (fun he => h he.symm)]
      have : (t :: ts).filter (fun u => u.date = k) =
          ts.filter (fun u => u.date = k) := by
        simp [List.filter_cons, h]
      rw [this]

/-- The grouping fold preserves the total P&L. -/
theorem dailyBuild_aux_sum (l : List Trade) :
    ∀ m : List (TDate × ℚ),
      (((l.foldl (fun m t => mapSet m t.date ((mapGet m t.date).getD 0 + t.pnl)) m)).map
          Prod.snd).sum =
        (m.map Prod.snd).sum + (l.map (fun t => t.pnl)).sum := by
  induction l with
  | nil => intro m; simp
  | cons t ts ih =>
    intro m
    rw [List.foldl_cons, ih, mapSet_snd_sum]
    simp
    ring

/-- The sort key of `dailyPnL` is transitive. -/
theorem pairLe_trans : ∀ a b c : TDate × ℚ,
    (fun a b : TDate × ℚ => (dateVal a.1 ≤ dateVal b.1 : Bool)) a b →
    (fun a b : TDate × ℚ => (dateVal a.1 ≤ dateVal b.1 : Bool)) b c →
    (fun a b : TDate × ℚ => (dateVal a.1 ≤ dateVal b.1 : Bool)) a c := by
  intro a b c hab hbc
  simp only [decide_eq_true_eq] at *
  omega

/-- The sort key of `dailyPnL` is total. -/
theorem pairLe_total : ∀ a b : TDate × ℚ,
    ((fun a b : TDate × ℚ => (dateVal a.1 ≤ dateVal b.1 : Bool)) a b ||
     (fun a b : TDate × ℚ => (dateVal a.1 ≤ dateVal b.1 : Bool)) b a) := by
  intro a b
  simp only [Bool.or_eq_true, decide_eq_true_eq]
  exact Nat.le_total _ _

/-- C6: `dailyPnL` emits exactly one entry per distinct input date, sorted
by date ascending; each entry's P&L is the sum over the trades of that
date, and the emitted P&L values total `summarize(trades).net`. -/
theorem dailyPnL_spec (l : List Trade) :
    (dailyPnL l).length = (l.map (fun t => t.date)).dedup.length ∧
      List.Pairwise (fun p q : DailyPoint => dateVal p.date ≤ dateVal q.date)
        (dailyPnL l) ∧
      (∀ p ∈ dailyPnL l,
        p.pnl = ((l.filter (fun t => t.date = p.date)).map (fun t => t.pnl)).sum) ∧
      ((dailyPnL l).map (fun p => p.pnl)).sum = (stats l).net := by
  have hnodup : ((dailyBuild l).map Prod.fst).Nodup :=
    dailyBuild_aux_nodup l [] (by simp)
  have hmem : ∀ k : TDate,
      k ∈ (dailyBuild l).map Prod.fst ↔ k ∈ l.map (fun t => t.date) := by
    intro k
    rw [dailyBuild]
    rw [dailyBuild_aux_mem l [] k]
    simp
  refine ⟨?_, ?_, ?_, ?_⟩
  · have h1 : (dailyPnL l).length = (dailyBuild l).length := by
      rw [dailyPnL, List.length_map, List.length_mergeSort]
    have h2 : (dailyBuild l).length = ((dailyBuild l).map Prod.fst).length :=
      (List.length_map _ _).symm
    have h3 : ((dailyBuild l).map Prod.fst).toFinset =
        (l.map (fun t => t.date)).toFinset := by
      ext k
      rw [List.mem_toFinset, List.mem_toFinset]
      exact hmem k
    rw [h1, h2, ← List.toFinset_card_of_nodup hnodup, h3, List.card_toFinset]
  · have hs := List.sorted_mergeSort pairLe_trans pairLe_total (dailyBuild l)
    have hP : List.Pairwise (fun a b : TDate × ℚ => dateVal a.1 ≤ dateVal b.1)
        ((dailyBuild l).mergeSort (fun a b => dateVal a.1 ≤ dateVal b.1)) :=
      hs.imp (fun h => of_decide_eq_true h)
    rw [dailyPnL, List.pairwise_map]
    exact hP
  · intro p hp
    rw [dailyPnL] at hp
    obtain ⟨q, hq, hqp⟩ := List.mem_map.mp hp
    have hq' : q ∈ dailyBuild l := List.mem_mergeSort.mp hq
    have hget : mapGet (dailyBuild l) q.1 = some q.2 :=
      mem_mapGet (dailyBuild l) q.1 q.2 hnodup (by simpa using hq')
    have hval := dailyBuild_aux_get l [] q.1
    rw [dailyBuild] at hget
    rw [hget] at hval
    simp only [mapGet, Option.getD_some, Option.getD_none] at hval
    have hdate : p.date = q.1 := by rw [← hqp]
    have hpnl : p.pnl = q.2 := by rw [← hqp]
    rw [hpnl, hdate]
    simpa using hval
  · have hperm : ((dailyBuild l).mergeSort (fun a b => dateVal a.1 ≤ dateVal b.1)).Perm
        (dailyBuild l) := List.mergeSort_perm _ _
    have h1 : ((dailyPnL l).map (fun p => p.pnl)).sum =
        (((dailyBuild l).mergeSort (fun a b => dateVal a.1 ≤ dateVal b.1)).map
          Prod.snd).sum := by
      rw [dailyPnL, List.map_map]
      rfl
    rw [h1, (hperm.map Prod.snd).sum_eq, stats_net_eq]
    have := dailyBuild_aux_sum l []
    simpa [dailyBuild] using this

/-- Witness for C6 on a concrete list with a repeated date. -/
theorem dailyPnL_spec_witness :
    (dailyPnL [sampleTrade "a" ⟨2025, 12, 5⟩ 284, sampleTrade "b" ⟨2025, 12, 12⟩ (-280),
               sampleTrade "c" ⟨2025, 12, 5⟩ 10]).length =
        ([sampleTrade "a" ⟨2025, 12, 5⟩ 284, sampleTrade "b" ⟨2025, 12, 12⟩ (-280),
          sampleTrade "c" ⟨2025, 12, 5⟩ 10].map (fun t => t.date)).dedup.length ∧
      ({ date := ⟨2025, 12, 5⟩, pnl := 294 } : DailyPoint).pnl =
        (([sampleTrade "a" ⟨2025, 12, 5⟩ 284, sampleTrade "b" ⟨2025, 12, 12⟩ (-280),
           sampleTrade "c" ⟨2025, 12, 5⟩ 10].filter
            (fun t => t.date = ({ date := ⟨2025, 12, 5⟩, pnl := 294 } : DailyPoint).date)).map
          (fun t => t.pnl)).sum := by
  have h := dailyPnL_spec [sampleTrade "a" ⟨2025, 12, 5⟩ 284,
    sampleTrade "b" ⟨2025, 12, 12⟩ (-280), sampleTrade "c" ⟨2025, 12, 5⟩ 10]
  refine ⟨h.1, h.2.2.1 { date := ⟨2025, 12, 5⟩, pnl := 294 } ?_⟩
  rw [dailyPnL]
  refine List.mem_map.mpr ⟨(⟨2025, 12, 5⟩, 294), ?_, rfl⟩
  rw [List.mem_mergeSort]
  have hbuild : dailyBuild [sampleTrade "a" ⟨2025, 12, 5⟩ 284,
      sampleTrade "b" ⟨2025, 12, 12⟩ (-280), sampleTrade "c" ⟨2025, 12, 5⟩ 10] =
      [(⟨2025, 12, 5⟩, 294), (⟨2025, 12, 12⟩, -280)] := by
    simp [dailyBuild, mapSet, mapGet, sampleTrade]
    norm_num
  rw [hbuild]
  exact List.mem_cons_self _ _

/-! ## C7: `best` / `worst` reporting metrics -/

/-- Once the `Math.max` fold has a value, it behaves as `List.foldl max`. -/
theorem jsMax_foldl (xs : List ℚ) :
    ∀ a : ℚ, xs.foldl (fun acc x =>
        match acc with
        | none => some x
        | some a' => some (max a' x)) (some a) = some (xs.foldl max a) := by
  induction xs with
  | nil => intro a; rfl
  | cons x xs ih => intro a; exact ih (max a x)

/-- Once the `Math.min` fold has a value, it behaves as `List.foldl min`. -/
theorem jsMin_foldl (xs : List ℚ) :
    ∀ a : ℚ, xs.foldl (fun acc x =>
        match acc with
        | none => some x
        | some a' => some (min a' x)) (some a) = some (xs.foldl min a) := by
  induction xs with
  | nil => intro a; rfl
  | cons x xs ih => intro a; exact ih (min a x)

/-- `List.foldl max a xs` is attained in `a :: xs` and bounds it above. -/
theorem foldl_max_spec (xs : List ℚ) :
    ∀ a : ℚ, (xs.foldl max a = a ∨ xs.foldl max a ∈ xs) ∧
      a ≤ xs.foldl max a ∧ ∀ x ∈ xs, x ≤ xs.foldl max a := by
  induction xs with
  | nil => intro a; exact ⟨Or.inl rfl, le_refl a, by simp⟩
  | cons x xs ih =>
    intro a
    obtain ⟨hmem, hle, hbound⟩ := ih (max a x)
    refine ⟨?_, ?_, ?_⟩
    · rcases hmem with h | h
      · rcases max_choice a x with hax | hax
        · exact Or.inl (by rw [List.foldl_cons, h, hax])
        · exact Or.inr (by rw [List.foldl_cons, h, hax]; exact List.mem_cons_self x xs)
      · exact Or.inr (List.mem_cons_of_mem x h)
    · exact le_trans (le_max_left a x) hle
    · intro y hy
      rcases List.mem_cons.mp hy with rfl | hy'
      · exact le_trans (le_max_right a y) hle
      · exact hbound y hy'

/-- `List.foldl min a xs` is attained in `a :: xs` and bounds it below. -/
theorem foldl_min_spec (xs : List ℚ) :
    ∀ a : ℚ, (xs.foldl min a = a ∨ xs.foldl min a ∈ xs) ∧
      xs.foldl min a ≤ a ∧ ∀ x ∈ xs, xs.foldl min a ≤ x := by
  induction xs with
  | nil => intro a; exact ⟨Or.inl rfl, le_refl a, by simp⟩
  | cons x xs ih =>
    intro a
    obtain ⟨hmem, hle, hbound⟩ := ih (min a x)
    refine ⟨?_, ?_, ?_⟩
    · rcases hmem with h | h
      · rcases min_choice a x with hax | hax
        · exact Or.inl (by rw [List.foldl_cons, h, hax])
        · exact Or.inr (by rw [List.foldl_cons, h, hax]; exact List.mem_cons_self x xs)
      · exact Or.inr (List.mem_cons_of_mem x h)
    · exact le_trans hle (min_le_left a x)
    · intro y hy
      rcases List.mem_cons.mp hy with rfl | hy'
      · exact le_trans hle (min_le_right a y)
      · exact hbound y hy'

/-- C7: for every non-empty trade sequence, `reportingMetrics` returns a
`best` equal to the maximum P&L across the input trades and a `worst`
equal to the minimum P&L across the input trades. -/
theorem best_worst_spec (ts : List Trade) (h : ts ≠ []) :
    ∃ b w : ℚ, best ts = some b ∧ worst ts = some w ∧
      b ∈ ts.map (fun t => t.pnl) ∧ w ∈ ts.map (fun t => t.pnl) ∧
      ∀ x ∈ ts.map (fun t => t.pnl), w ≤ x ∧ x ≤ b := by
  cases ts with
  | nil => exact absurd rfl h
  | cons t ts =>
    refine ⟨(ts.map (fun t => t.pnl)).foldl max t.pnl,
            (ts.map (fun t => t.pnl)).foldl min t.pnl, ?_, ?_, ?_, ?_, ?_⟩
    · show jsMax (t.pnl :: ts.map (fun t => t.pnl)) = _
      exact jsMax_foldl (ts.map (fun t => t.pnl)) t.pnl
    · show jsMin (t.pnl :: ts.map (fun t => t.pnl)) = _
      exact jsMin_foldl (ts.map (fun t => t.pnl)) t.pnl
    · rcases (foldl_max_spec (ts.map (fun t => t.pnl)) t.pnl).1 with h' | h'
      · rw [h']; simp
      · simp [List.mem_cons_of_mem _ h']
    · rcases (foldl_min_spec (ts.map (fun t => t.pnl)) t.pnl).1 with h' | h'
      · rw [h']; simp
      · simp [List.mem_cons_of_mem _ h']
    · intro x hx
      obtain ⟨_, hminle, hminb⟩ := foldl_min_spec (ts.map (fun t => t.pnl)) t.pnl
      obtain ⟨_, hmaxle, hmaxb⟩ := foldl_max_spec (ts.map (fun t => t.pnl)) t.pnl
      rcases List.mem_cons.mp hx with rfl | hx'
      · exact ⟨hminle, hmaxle⟩
      · exact ⟨hminb x hx', hmaxb x hx'⟩

/-- Witness for C7 on a concrete three-trade list. -/
theorem best_worst_spec_witness :
    ∃ b w : ℚ,
      best [sampleTrade "a" ⟨2025, 12, 5⟩ 284, sampleTrade "b" ⟨2025, 12, 12⟩ (-280),
            sampleTrade "c" ⟨2025, 12, 18⟩ 250] = some b ∧
      worst [sampleTrade "a" ⟨2025, 12, 5⟩ 284, sampleTrade "b" ⟨2025, 12, 12⟩ (-280),
             sampleTrade "c" ⟨2025, 12, 18⟩ 250] = some w ∧
      b ∈ [sampleTrade "a" ⟨2025, 12, 5⟩ 284, sampleTrade "b" ⟨2025, 12, 12⟩ (-280),
           sampleTrade "c" ⟨2025, 12, 18⟩ 250].map (fun t => t.pnl) ∧
      w ∈ [sampleTrade "a" ⟨2025, 12, 5⟩ 284, sampleTrade "b" ⟨2025, 12, 12⟩ (-280),
           sampleTrade "c" ⟨2025, 12, 18⟩ 250].map (fun t => t.pnl) ∧
      ∀ x ∈ [sampleTrade "a" ⟨2025, 12, 5⟩ 284, sampleTrade "b" ⟨2025, 12, 12⟩ (-280),
             sampleTrade "c" ⟨2025, 12, 18⟩ 250].map (fun t => t.pnl), w ≤ x ∧ x ≤ b :=
  best_worst_spec _ (by decide)

/-! ## C8: `summarize(trades).net` is the sum of the P&L values -/

/-- C8: for every non-empty trade sequence, `summarize(trades).net` equals
the arithmetic sum of each trade's `pnl`, and the result is independent of
the order of the input trades. -/
theorem stats_net_spec (ts ts' : List Trade) (_hne : ts ≠ []) (hperm : ts.Perm ts') :
    (stats ts).net = (ts.map (fun t => t.pnl)).sum ∧
      (stats ts).net = (stats ts').net := by
  have hn : ∀ l : List Trade, (stats l).net = (l.map (fun t => t.pnl)).sum := by
    intro l
    show l.foldl (fun acc t => acc + t.pnl) 0 = _
    rw [foldl_add_eq (fun t => t.pnl) l 0, zero_add]
  refine ⟨hn ts, ?_⟩
  rw [hn ts, hn ts']
  exact (hperm.map (fun t => t.pnl)).sum_eq

/-- Witness for C8 at a concrete permuted pair of trade lists. -/
theorem stats_net_spec_witness :
    (stats [sampleTrade "a" ⟨2025, 12, 5⟩ 3, sampleTrade "b" ⟨2025, 12, 6⟩ (-2)]).net =
        ([sampleTrade "a" ⟨2025, 12, 5⟩ 3,
          sampleTrade "b" ⟨2025, 12, 6⟩ (-2)].map (fun t => t.pnl)).sum ∧
      (stats [sampleTrade "a" ⟨2025, 12, 5⟩ 3, sampleTrade "b" ⟨2025, 12, 6⟩ (-2)]).net =
        (stats [sampleTrade "b" ⟨2025, 12, 6⟩ (-2), sampleTrade "a" ⟨2025, 12, 5⟩ 3]).net :=
  stats_net_spec _ _ (by decide) (by decide)

/-! ## C9: `health` never signals failure -/

/-- C9: `health()` always resolves with `ok = true`; its `source` is
`"api"` exactly when the backend fetch succeeds with a truthy `ok` body
field, and `"local"` in every other case. -/
theorem health_spec (o : FetchOutcome) :
    (health o).ok = true ∧
      ((health o).source = "api" ↔ o = .success true) ∧
      ((health o).source = "local" ↔ o ≠ .success true) := by
  cases o with
  | fetchError => refine ⟨rfl, ?_, ?_⟩ <;> simp [health, tryApiHealth]
  | httpError => refine ⟨rfl, ?_, ?_⟩ <;> simp [health, tryApiHealth]
  | success b =>
    cases b with
    | false => refine ⟨rfl, ?_, ?_⟩ <;> simp [health, tryApiHealth]
    | true => refine ⟨rfl, ?_, ?_⟩ <;> simp [health, tryApiHealth]

/-! ## C10: `assignSession` frame conditions -/

/-- C10: `assignSession(tradeId, session)` keeps the list length and order,
rewrites only the `session` field (to the given session) of trades whose
`id` equals `tradeId`, leaves every other trade untouched, and is the
identity when no trade has that id. -/
theorem assignSession_spec (ts : List Trade) (tid s : String) :
    ((∀ t ∈ ts, t.id ≠ tid) → assignSession tid s ts = ts) ∧
      (assignSession tid s ts).length = ts.length ∧
      (∀ (i : Nat) (t : Trade), ts[i]? = some t → t.id = tid →
        (assignSession tid s ts)[i]? =
          some { id := t.id, date := t.date, symbol := t.symbol,
                 direction := t.direction, entry := t.entry, exit := t.exit,
                 size := t.size, pnl := t.pnl, session := some s,
                 notes := t.notes, isExitRecord := t.isExitRecord }) ∧
      (∀ (i : Nat) (t : Trade), ts[i]? = some t → t.id ≠ tid →
        (assignSession tid s ts)[i]? = some t) := by
  refine ⟨?_, ?_, ?_, ?_⟩
  · intro h
    unfold assignSession
    induction ts with
    | nil => rfl
    | cons t ts ih =>
      have ht : t.id ≠ tid := h t (by simp)
      simp only [List.map_cons, if_neg ht]
      rw [ih (fun u hu => h u (by simp [hu]))]
  · exact ts.length_map _
  · intro i t hget hid
    unfold assignSession
    rw [List.getElem?_map, hget]
    simp only [Option.map_some']
    rw [if_pos hid]
  · intro i t hget hid
    unfold assignSession
    rw [List.getElem?_map, hget]
    simp only [Option.map_some']
    rw [if_neg hid]

/-- Witness for C10 at concrete inputs: one call where the id is absent
(list unchanged) and one where it matches (only `session` rewritten). -/
theorem assignSession_spec_witness :
    assignSession "T-2" "Tokyo" [sampleTrade "T-1" ⟨2025, 12, 5⟩ 3] =
      [sampleTrade "T-1" ⟨2025, 12, 5⟩ 3] ∧
    (assignSession "T-1" "Tokyo" [sampleTrade "T-1" ⟨2025, 12, 5⟩ 3])[0]? =
      some { sampleTrade "T-1" ⟨2025, 12, 5⟩ 3 with session := some "Tokyo" } := by
  have h1 := assignSession_spec [sampleTrade "T-1" ⟨2025, 12, 5⟩ 3] "T-2" "Tokyo"
  have h2 := assignSession_spec [sampleTrade "T-1" ⟨2025, 12, 5⟩ 3] "T-1" "Tokyo"
  exact ⟨h1.1 (by decide), h2.2.2.1 0 _ (by decide) (by decide)⟩

end TAD

